import Mathlib

/-!
Shallow embedding of the ScraperJS crawler kernel (src/scraper.js) and
verification of its specification claims.

The embedding translates the source as written:

* `tmc.ScraperJS.prototype.computeLinkPriority` (scraper.js lines 911-945)
  becomes `computeLinkPriority`.  The source reads the bare identifiers
  `linkPriorityRules_`, `highestLinkPriority` and `lowestLinkPriority`
  (without `this.` and, for the latter two, without the trailing
  underscore); the only sensible referents are the instance fields
  `this.linkPriorityRules_`, `this.highestLinkPriority_` and
  `this.lowestLinkPriority_` declared on the prototype, and the embedding
  reads those fields.  The post-increment / post-decrement semantics of
  `priority = highestLinkPriority++` and `priority = lowestLinkPriority--`
  (return the old value, then bump the field) is kept exactly.
* `tmc.ScraperJS.prototype.enqueueLink` (lines 881-901) becomes
  `enqueueLink`.  The SHA-1 digest of `goog.crypt.Sha1` is an external
  library; it is threaded through as an explicit `hash` parameter.
* `tmc.ScraperJS.prototype.getLoadableUrlObj` (lines 828-872) becomes
  `getLoadableUrlObj` over a record model of `goog.Uri`; the library's
  relative-reference resolution is threaded through as an explicit
  `resolve` parameter.
* the default `'*/*'` data extractor installed by `init` (lines 542-560)
  becomes `defaultDataExtractor`.
* `tmc.ScraperJS.RX_PARSE_LINK = /^([^>]*)>(.*)$/` (line 63) becomes
  `rxParseLink`, including the JavaScript semantics that `.` does not
  match line terminators.
-/

namespace ScraperJS

/-- A JavaScript priority value as stored in a priority rule:
an integer, the string `'++'`, the string `'--'`, or `null`. -/
inductive JsPriority where
  | num (n : Int)
  | inc
  | dec
  | drop
deriving DecidableEq, Repr

/-- A link priority rule `{regex, priority}`.  A JavaScript regular
expression is modelled by its `test` behaviour, a boolean predicate on
strings. -/
structure PriorityRule where
  test : String → Bool
  priority : JsPriority

/-- The two watermark instance fields `highestLinkPriority_` and
`lowestLinkPriority_`, both initialized to `0` by `init`. -/
structure PriorityState where
  highestLinkPriority : Int
  lowestLinkPriority : Int
deriving DecidableEq, Repr

/-- The body of the `switch (priority)` statement of `computeLinkPriority`
applied once a rule has matched.  `'++'` returns the old highest watermark
and then increments it (post-increment in the source); `'--'` returns the
old lowest watermark and then decrements it; a fixed number updates the
watermarks; `null` returns `null`.  (In the source `null` flows into the
`default:` branch, where the comparisons `null > highestLinkPriority` and
`null < lowestLinkPriority` coerce `null` to `0` and are both false for
every reachable state, since the highest watermark never goes below `0`
and the lowest never above `0`; the state is therefore unchanged.) -/
def applyRule (r : PriorityRule) (s : PriorityState) : Option Int × PriorityState :=
  match r.priority with
  | .inc => (some s.highestLinkPriority,
      { s with highestLinkPriority := s.highestLinkPriority + 1 })
  | .dec => (some s.lowestLinkPriority,
      { s with lowestLinkPriority := s.lowestLinkPriority - 1 })
  | .num n =>
      if n > s.highestLinkPriority then (some n, { s with highestLinkPriority := n })
      else if n < s.lowestLinkPriority then (some n, { s with lowestLinkPriority := n })
      else (some n, s)
  | .drop => (none, s)

/-- `tmc.ScraperJS.prototype.computeLinkPriority`: scan the rules in
order; the first rule whose regular expression matches the link decides
the priority (and the function returns immediately); if no rule matches
the default priority `0` is returned with the watermarks untouched.
Returns the computed priority (`none` for the JavaScript `null`) together
with the updated watermark state. -/
def computeLinkPriority (rules : List PriorityRule) (s : PriorityState)
    (link : String) : Option Int × PriorityState :=
  match rules with
  | [] => (some 0, s)
  | r :: rest =>
      if r.test link then applyRule r s
      else computeLinkPriority rest s link

/-- The first rule of `rules` whose regular expression matches `link`. -/
def firstMatch (rules : List PriorityRule) (link : String) : Option PriorityRule :=
  match rules with
  | [] => none
  | r :: rest => if r.test link then some r else firstMatch rest link

theorem computeLinkPriority_eq_firstMatch (rules : List PriorityRule)
    (s : PriorityState) (link : String) :
    computeLinkPriority rules s link =
      match firstMatch rules link with
      | none => (some 0, s)
      | some r => applyRule r s := by
  induction rules with
  | nil => rfl
  | cons r rest ih =>
      by_cases h : r.test link = true
      · simp [computeLinkPriority, firstMatch, h]
      · simp only [Bool.not_eq_true] at h
        simp [computeLinkPriority, firstMatch, h, ih]

/-- Threads `computeLinkPriority` through a sequence of links within one
session, collecting the returned priorities and the final watermark
state. -/
def computeSeq (rules : List PriorityRule) : PriorityState → List String →
    List (Option Int) × PriorityState
  | s, [] => ([], s)
  | s, l :: ls =>
      ((computeLinkPriority rules s l).1 ::
          (computeSeq rules (computeLinkPriority rules s l).2 ls).1,
        (computeSeq rules (computeLinkPriority rules s l).2 ls).2)

theorem computeLinkPriority_of_inc (rules : List PriorityRule) (s : PriorityState)
    (link : String)
    (h : (firstMatch rules link).map PriorityRule.priority = some JsPriority.inc) :
    computeLinkPriority rules s link =
      (some s.highestLinkPriority,
        { s with highestLinkPriority := s.highestLinkPriority + 1 }) := by
  rw [computeLinkPriority_eq_firstMatch]
  cases hfm : firstMatch rules link with
  | none => simp [hfm] at h
  | some r =>
      have hpr : r.priority = JsPriority.inc := by simpa [hfm] using h
      simp [applyRule, hpr]

theorem computeLinkPriority_of_dec (rules : List PriorityRule) (s : PriorityState)
    (link : String)
    (h : (firstMatch rules link).map PriorityRule.priority = some JsPriority.dec) :
    computeLinkPriority rules s link =
      (some s.lowestLinkPriority,
        { s with lowestLinkPriority := s.lowestLinkPriority - 1 }) := by
  rw [computeLinkPriority_eq_firstMatch]
  cases hfm : firstMatch rules link with
  | none => simp [hfm] at h
  | some r =>
      have hpr : r.priority = JsPriority.dec := by simpa [hfm] using h
      simp [applyRule, hpr]

theorem computeSeq_inc_lower_bound (rules : List PriorityRule) (links : List String)
    (hinc : ∀ l ∈ links, (firstMatch rules l).map PriorityRule.priority
      = some JsPriority.inc) :
    ∀ s : PriorityState, ∀ v ∈ (computeSeq rules s links).1,
      s.highestLinkPriority ≤ v.getD 0 := by
  induction links with
  | nil => intro s v hv; simp [computeSeq] at hv
  | cons l ls ih =>
      intro s v hv
      have hstep := computeLinkPriority_of_inc rules s l (hinc l (by simp))
      simp only [computeSeq, hstep, List.mem_cons] at hv
      rcases hv with hv | hv
      · simp [hv]
      · have hrec := ih (fun x hx => hinc x (by simp [hx]))
          { s with highestLinkPriority := s.highestLinkPriority + 1 } v hv
        have h2 : s.highestLinkPriority + 1 ≤ v.getD 0 := hrec
        omega

theorem computeSeq_dec_upper_bound (rules : List PriorityRule) (links : List String)
    (hdec : ∀ l ∈ links, (firstMatch rules l).map PriorityRule.priority
      = some JsPriority.dec) :
    ∀ s : PriorityState, ∀ v ∈ (computeSeq rules s links).1,
      v.getD 0 ≤ s.lowestLinkPriority := by
  induction links with
  | nil => intro s v hv; simp [computeSeq] at hv
  | cons l ls ih =>
      intro s v hv
      have hstep := computeLinkPriority_of_dec rules s l (hdec l (by simp))
      simp only [computeSeq, hstep, List.mem_cons] at hv
      rcases hv with hv | hv
      · simp [hv]
      · have hrec := ih (fun x hx => hdec x (by simp [hx]))
          { s with lowestLinkPriority := s.lowestLinkPriority - 1 } v hv
        have h2 : v.getD 0 ≤ s.lowestLinkPriority - 1 := hrec
        omega

/-- Claim C3: within one session, a sequence of consecutive `'++'`
directive resolutions by `computeLinkPriority` returns strictly increasing
values, and a sequence of consecutive `'--'` resolutions returns strictly
decreasing values.  (With the source's post-increment, the `'++'` values
are `h, h+1, h+2, ...` starting at the current highest watermark `h`;
still strictly increasing.  Symmetrically for `'--'`.) -/
theorem directive_sequences_strictly_monotone (rules : List PriorityRule)
    (s : PriorityState) (links : List String) :
    ((∀ l ∈ links, (firstMatch rules l).map PriorityRule.priority
        = some JsPriority.inc) →
      ((computeSeq rules s links).1.map (fun v => v.getD 0)).Pairwise (· < ·)) ∧
    ((∀ l ∈ links, (firstMatch rules l).map PriorityRule.priority
        = some JsPriority.dec) →
      ((computeSeq rules s links).1.map (fun v => v.getD 0)).Pairwise (· > ·)) := by
  constructor
  · intro hinc
    rw [List.pairwise_map]
    induction links generalizing s with
    | nil => simp [computeSeq]
    | cons l ls ih =>
        have hinc' : ∀ x ∈ ls,
            (firstMatch rules x).map PriorityRule.priority = some JsPriority.inc :=
          fun x hx => hinc x (by simp [hx])
        have hstep := computeLinkPriority_of_inc rules s l (hinc l (by simp))
        simp only [computeSeq, hstep]
        refine List.Pairwise.cons ?_ (ih _ hinc')
        intro v hv
        have hbound := computeSeq_inc_lower_bound rules ls hinc'
          { s with highestLinkPriority := s.highestLinkPriority + 1 } v hv
        have h2 : s.highestLinkPriority + 1 ≤ v.getD 0 := hbound
        have h3 : (some s.highestLinkPriority).getD 0 < v.getD 0 := by
          simp only [Option.getD_some]; omega
        exact h3
  · intro hdec
    rw [List.pairwise_map]
    induction links generalizing s with
    | nil => simp [computeSeq]
    | cons l ls ih =>
        have hdec' : ∀ x ∈ ls,
            (firstMatch rules x).map PriorityRule.priority = some JsPriority.dec :=
          fun x hx => hdec x (by simp [hx])
        have hstep := computeLinkPriority_of_dec rules s l (hdec l (by simp))
        simp only [computeSeq, hstep]
        refine List.Pairwise.cons ?_ (ih _ hdec')
        intro v hv
        have hbound := computeSeq_dec_upper_bound rules ls hdec'
          { s with lowestLinkPriority := s.lowestLinkPriority - 1 } v hv
        have h2 : v.getD 0 ≤ s.lowestLinkPriority - 1 := hbound
        have h3 : (some s.lowestLinkPriority).getD 0 > v.getD 0 := by
          simp only [Option.getD_some]; omega
        exact h3

/-- Witness for C3 at a concrete input: one all-matching `'++'` rule over
three links, and one all-matching `'--'` rule over three links. -/
theorem directive_sequences_strictly_monotone_witness :
    ((∀ l ∈ ["a", "b", "c"],
        (firstMatch [⟨fun _ => true, JsPriority.inc⟩] l).map PriorityRule.priority
          = some JsPriority.inc) ∧
      ((computeSeq [⟨fun _ => true, JsPriority.inc⟩] ⟨0, 0⟩ ["a", "b", "c"]).1.map
        (fun v => v.getD 0)).Pairwise (· < ·)) ∧
    ((∀ l ∈ ["a", "b", "c"],
        (firstMatch [⟨fun _ => true, JsPriority.dec⟩] l).map PriorityRule.priority
          = some JsPriority.dec) ∧
      ((computeSeq [⟨fun _ => true, JsPriority.dec⟩] ⟨0, 0⟩ ["a", "b", "c"]).1.map
        (fun v => v.getD 0)).Pairwise (· > ·)) :=
  ⟨⟨by decide,
    (directive_sequences_strictly_monotone _ _ _).1 (by decide)⟩,
   ⟨by decide,
    (directive_sequences_strictly_monotone _ _ _).2 (by decide)⟩⟩

/-- Claim C2 (code bug): the source's own documentation says the `'++'`
directive yields "highest priority encountered so far + 1", but the
post-increment `priority = highestLinkPriority++` returns the OLD highest
watermark (and only then bumps the field); symmetrically `'--'` returns
the old lowest watermark.  At the failing input — one all-matching `'++'`
rule starting from the initial watermark state `(0, 0)` — the code
returns priority `0` while the documentation and the claim say `1`
(`highestSeen + 1`); for `'--'` it returns `0` instead of `-1`. -/
theorem computeLinkPriority_postincrement_eval :
    computeLinkPriority [⟨fun _ => true, JsPriority.inc⟩] ⟨0, 0⟩ "0>http://a/"
        = (some 0, ⟨1, 0⟩) ∧
    computeLinkPriority [⟨fun _ => true, JsPriority.dec⟩] ⟨0, 0⟩ "0>http://a/"
        = (some 0, ⟨0, -1⟩) := by
  exact ⟨rfl, rfl⟩

/-- Claim C4: `computeLinkPriority` applies only the directive of the
first rule whose pattern matches the link — the result is `applyRule` of
that rule, independent of every later rule — and when no rule matches it
returns priority `0` with the watermark state unchanged. -/
theorem computeLinkPriority_first_match_wins (s : PriorityState) (link : String) :
    (∀ (earlier : List PriorityRule) (r : PriorityRule) (later : List PriorityRule),
        (∀ r' ∈ earlier, r'.test link = false) → r.test link = true →
        computeLinkPriority (earlier ++ r :: later) s link = applyRule r s) ∧
    (∀ rules : List PriorityRule,
        (∀ r' ∈ rules, r'.test link = false) →
        computeLinkPriority rules s link = (some 0, s)) := by
  constructor
  · intro earlier r later hearlier hr
    induction earlier with
    | nil => simp [computeLinkPriority, hr]
    | cons e es ih =>
        have he : e.test link = false := hearlier e (by simp)
        simp only [List.cons_append, computeLinkPriority, he, Bool.false_eq_true,
          if_false]
        exact ih (fun r' hr' => hearlier r' (by simp [hr']))
  · intro rules hn
    induction rules with
    | nil => rfl
    | cons e es ih =>
        have he : e.test link = false := hn e (by simp)
        simp only [computeLinkPriority, he, Bool.false_eq_true, if_false]
        exact ih (fun r' hr' => hn r' (by simp [hr']))

/-- Witness for C4 at a concrete input: a non-matching earlier rule, a
matching rule with fixed priority `5`, and a later all-matching rule with
priority `9` that is never consulted; and separately a single
non-matching rule, giving the default priority `0`. -/
theorem computeLinkPriority_first_match_wins_witness :
    ((∀ r' ∈ [(⟨fun l => l == "other", JsPriority.num 7⟩ : PriorityRule)],
        r'.test "0>http://a/" = false) ∧
      (⟨fun _ => true, JsPriority.num 5⟩ : PriorityRule).test "0>http://a/" = true ∧
      computeLinkPriority
        ([⟨fun l => l == "other", JsPriority.num 7⟩] ++
          (⟨fun _ => true, JsPriority.num 5⟩ : PriorityRule) ::
            [⟨fun _ => true, JsPriority.num 9⟩]) ⟨0, 0⟩ "0>http://a/"
        = applyRule ⟨fun _ => true, JsPriority.num 5⟩ ⟨0, 0⟩) ∧
    ((∀ r' ∈ [(⟨fun l => l == "other", JsPriority.num 7⟩ : PriorityRule)],
        r'.test "0>http://a/" = false) ∧
      computeLinkPriority [⟨fun l => l == "other", JsPriority.num 7⟩] ⟨0, 0⟩
        "0>http://a/" = (some 0, ⟨0, 0⟩)) :=
  ⟨⟨by decide, by decide,
    (computeLinkPriority_first_match_wins ⟨0, 0⟩ "0>http://a/").1 _ _ _
      (by decide) (by decide)⟩,
   ⟨by decide,
    (computeLinkPriority_first_match_wins ⟨0, 0⟩ "0>http://a/").2 _ (by decide)⟩⟩

/-- The instance fields of a `tmc.ScraperJS` object that the enqueue path
touches: `maxCrawlDepth_`, `linkPriorityRules_`, the watermark pair
(`highestLinkPriority_` / `lowestLinkPriority_`, bundled as `pstate`),
the link dedup table `linkStatuses_` (modelled as the list of hashes
present as keys), and the frontier `linkQueue_` (modelled as the list of
`(priority, serialized link)` pairs in insertion order). -/
structure ScraperState where
  maxCrawlDepth : Nat
  linkPriorityRules : List PriorityRule
  pstate : PriorityState
  linkStatuses : List String
  linkQueue : List (Int × String)

/-- The serialized queue form of a crawl link built by `enqueueLink`:
`linkDepth + '>' + linkUrl` (JavaScript number-to-string on a
non-negative integer yields its decimal digits). -/
def serializeLink (d : Nat) (u : String) : String := Nat.repr d ++ ">" ++ u

/-- `tmc.ScraperJS.prototype.enqueueLink`: if the depth is within the
bound (or the bound is `0`, meaning unlimited), hash the url; if the hash
is not yet a key of `linkStatuses_`, serialize the link, compute its
priority, and — only when the priority is not `null` — mark the hash
seen and enqueue.  The SHA-1 digest (`goog.crypt.Sha1`, an external
library) is the explicit `hash` parameter. -/
def enqueueLink (hash : String → String) (st : ScraperState) (linkUrl : String)
    (linkDepth : Nat) : ScraperState :=
  if linkDepth ≤ st.maxCrawlDepth ∨ st.maxCrawlDepth = 0 then
    if hash linkUrl ∈ st.linkStatuses then st
    else
      match computeLinkPriority st.linkPriorityRules st.pstate
          (serializeLink linkDepth linkUrl) with
      | (none, s2) => { st with pstate := s2 }
      | (some p, s2) =>
          { st with
            pstate := s2,
            linkStatuses := hash linkUrl :: st.linkStatuses,
            linkQueue := st.linkQueue ++ [(p, serializeLink linkDepth linkUrl)] }
  else st

/-- A scraper state with a single rule that drops every link. -/
def dropAllState : ScraperState :=
  ⟨0, [⟨fun _ => true, JsPriority.drop⟩], ⟨0, 0⟩, [], []⟩

/-- Counterexample to claim C5 at an explicit input: enqueueing
`"http://a/"` at depth `0` into a fresh state whose only priority rule
drops every link leaves `linkStatuses_` empty — the identity hash is NOT
marked seen for dropped links (the claim says it is), and nothing is
inserted into the queue. -/
theorem drop_not_marked_counterexample :
    (enqueueLink (fun s => s) dropAllState "http://a/" 0).linkStatuses = [] ∧
    (enqueueLink (fun s => s) dropAllState "http://a/" 0).linkQueue = [] := by
  constructor <;> rfl

/-- Claim C5 (amended): when the computed priority of the serialized link
is `null` (drop), `enqueueLink` discards the link without inserting it
into the queue and also WITHOUT marking the url's identity hash as seen,
so a later enqueue of the same url re-evaluates the priority rules. -/
theorem drop_discards_without_marking (hash : String → String) (st : ScraperState)
    (url : String) (d : Nat)
    (hdepth : d ≤ st.maxCrawlDepth ∨ st.maxCrawlDepth = 0)
    (hnew : hash url ∉ st.linkStatuses)
    (hdrop : (computeLinkPriority st.linkPriorityRules st.pstate
      (serializeLink d url)).1 = none) :
    (enqueueLink hash st url d).linkQueue = st.linkQueue ∧
    (enqueueLink hash st url d).linkStatuses = st.linkStatuses := by
  rcases hp : computeLinkPriority st.linkPriorityRules st.pstate
    (serializeLink d url) with ⟨pr, s2⟩
  rw [hp] at hdrop
  simp only at hdrop
  subst hdrop
  unfold enqueueLink
  rw [if_pos hdepth, if_neg hnew, hp]
  exact ⟨rfl, rfl⟩

/-- Witness for C5 at a concrete input: the drop-everything state from
the counterexample satisfies all three hypotheses. -/
theorem drop_discards_without_marking_witness :
    ((0 ≤ dropAllState.maxCrawlDepth ∨ dropAllState.maxCrawlDepth = 0) ∧
      (fun s => s) "http://a/" ∉ dropAllState.linkStatuses ∧
      (computeLinkPriority dropAllState.linkPriorityRules dropAllState.pstate
        (serializeLink 0 "http://a/")).1 = none) ∧
    (enqueueLink (fun s => s) dropAllState "http://a/" 0).linkQueue
        = dropAllState.linkQueue ∧
    (enqueueLink (fun s => s) dropAllState "http://a/" 0).linkStatuses
        = dropAllState.linkStatuses :=
  ⟨⟨Or.inr rfl, by decide, rfl⟩,
    drop_discards_without_marking (fun s => s) dropAllState "http://a/" 0
      (Or.inr rfl) (by decide) rfl⟩

/-- Counterexample to claim C6 at an explicit input: with a rule that
drops every link, enqueueing the same url twice (depths `0` and `1`)
results in ZERO frontier entries, not exactly one. -/
theorem double_enqueue_drop_counterexample :
    ((enqueueLink (fun s => s)
        (enqueueLink (fun s => s) dropAllState "http://a/" 0)
        "http://a/" 1).linkQueue).length = 0 := by
  rfl

/-- Claim C6 (amended): calling `enqueueLink` twice with the same url
results in AT MOST one frontier entry — exactly one provided the first
call passes the depth bound and its computed priority is not drop —
because the identity hash is computed over the url alone (not the
depth-prefixed serialized form), so once the first call inserts, the
second call is a no-op whatever its depth. -/
theorem enqueue_idempotent_amended (hash : String → String) (st : ScraperState)
    (u : String) (d1 d2 : Nat)
    (hnew : hash u ∉ st.linkStatuses)
    (hd1 : d1 ≤ st.maxCrawlDepth ∨ st.maxCrawlDepth = 0)
    (hp1 : (computeLinkPriority st.linkPriorityRules st.pstate
      (serializeLink d1 u)).1 ≠ none) :
    enqueueLink hash (enqueueLink hash st u d1) u d2 = enqueueLink hash st u d1 ∧
    ((enqueueLink hash st u d1).linkQueue).length = st.linkQueue.length + 1 := by
  rcases hp : computeLinkPriority st.linkPriorityRules st.pstate
    (serializeLink d1 u) with ⟨pr, s2⟩
  rw [hp] at hp1
  simp only [ne_eq] at hp1
  cases pr with
  | none => exact absurd rfl hp1
  | some p =>
      have hst1 : enqueueLink hash st u d1 =
          { st with
            pstate := s2,
            linkStatuses := hash u :: st.linkStatuses,
            linkQueue := st.linkQueue ++ [(p, serializeLink d1 u)] } := by
        unfold enqueueLink
        rw [if_pos hd1, if_neg hnew, hp]
      constructor
      · rw [hst1]
        unfold enqueueLink
        by_cases hd2 : d2 ≤ st.maxCrawlDepth ∨ st.maxCrawlDepth = 0
        · rw [if_pos (by simpa using hd2)]
          rw [if_pos (by simp)]
        · rw [if_neg (by simpa using hd2)]
      · rw [hst1]
        simp

/-- Witness for C6 at a concrete input: a fresh default state (no rules,
unlimited depth) and the url `"http://a/"` at depths `0` then `5`. -/
theorem enqueue_idempotent_amended_witness :
    ((fun s => s) "http://a/" ∉ (⟨0, [], ⟨0, 0⟩, [], []⟩ : ScraperState).linkStatuses ∧
      ((0 : Nat) ≤ (⟨0, [], ⟨0, 0⟩, [], []⟩ : ScraperState).maxCrawlDepth ∨
        (⟨0, [], ⟨0, 0⟩, [], []⟩ : ScraperState).maxCrawlDepth = 0) ∧
      (computeLinkPriority [] ⟨0, 0⟩ (serializeLink 0 "http://a/")).1 ≠ none) ∧
    enqueueLink (fun s => s)
        (enqueueLink (fun s => s) ⟨0, [], ⟨0, 0⟩, [], []⟩ "http://a/" 0)
        "http://a/" 5
      = enqueueLink (fun s => s) ⟨0, [], ⟨0, 0⟩, [], []⟩ "http://a/" 0 ∧
    ((enqueueLink (fun s => s) ⟨0, [], ⟨0, 0⟩, [], []⟩ "http://a/" 0).linkQueue).length
      = ((⟨0, [], ⟨0, 0⟩, [], []⟩ : ScraperState).linkQueue).length + 1 :=
  ⟨⟨by decide, Or.inr rfl, by decide⟩,
    enqueue_idempotent_amended (fun s => s) ⟨0, [], ⟨0, 0⟩, [], []⟩ "http://a/" 0 5
      (by decide) (Or.inr rfl) (by decide)⟩

/-- A frontier entry's serialized form records a depth within the bound
`m`. -/
def entryDepthLe (m : Nat) (e : Int × String) : Prop :=
  ∃ d u, e.2 = serializeLink d u ∧ d ≤ m

/-- Claim C7: when `maxCrawlDepth_` is non-zero, `enqueueLink` on a link
whose depth exceeds the bound leaves the state entirely unchanged (no
queue insertion, nothing added to the dedup index); consequently, if
every queue entry records a depth within the bound, this remains true
after any enqueue. -/
theorem enqueue_depth_bound (hash : String → String) (st : ScraperState)
    (u : String) (d : Nat) (hmax : st.maxCrawlDepth ≠ 0) :
    (d > st.maxCrawlDepth → enqueueLink hash st u d = st) ∧
    (∀ (d' : Nat) (u' : String),
      (∀ e ∈ st.linkQueue, entryDepthLe st.maxCrawlDepth e) →
      ∀ e ∈ (enqueueLink hash st u' d').linkQueue, entryDepthLe st.maxCrawlDepth e) := by
  constructor
  · intro hgt
    unfold enqueueLink
    rw [if_neg (by omega)]
  · intro d' u' hinv e he
    unfold enqueueLink at he
    by_cases hd : d' ≤ st.maxCrawlDepth ∨ st.maxCrawlDepth = 0
    · rw [if_pos hd] at he
      by_cases hseen : hash u' ∈ st.linkStatuses
      · rw [if_pos hseen] at he
        exact hinv e he
      · rw [if_neg hseen] at he
        rcases hp : computeLinkPriority st.linkPriorityRules st.pstate
          (serializeLink d' u') with ⟨pr, s2⟩
        rw [hp] at he
        cases pr with
        | none => exact hinv e he
        | some p =>
            simp only [List.mem_append, List.mem_singleton] at he
            rcases he with he | he
            · exact hinv e he
            · subst he
              exact ⟨d', u', rfl, by omega⟩
    · rw [if_neg hd] at he
      exact hinv e he

/-- Witness for C7 at a concrete input: a fresh state with
`maxCrawlDepth = 1`; a depth-`2` enqueue is a no-op, and after a depth-`1`
enqueue every queue entry records a depth within the bound. -/
theorem enqueue_depth_bound_witness :
    ((⟨1, [], ⟨0, 0⟩, [], []⟩ : ScraperState).maxCrawlDepth ≠ 0 ∧ (2 : Nat) > 1 ∧
      (∀ e ∈ (⟨1, [], ⟨0, 0⟩, [], []⟩ : ScraperState).linkQueue, entryDepthLe 1 e)) ∧
    enqueueLink (fun s => s) ⟨1, [], ⟨0, 0⟩, [], []⟩ "http://a/" 2
      = ⟨1, [], ⟨0, 0⟩, [], []⟩ ∧
    (∀ e ∈ (enqueueLink (fun s => s) ⟨1, [], ⟨0, 0⟩, [], []⟩ "http://a/" 1).linkQueue,
      entryDepthLe (⟨1, [], ⟨0, 0⟩, [], []⟩ : ScraperState).maxCrawlDepth e) :=
  ⟨⟨by decide, by decide, by simp⟩,
    (enqueue_depth_bound (fun s => s) ⟨1, [], ⟨0, 0⟩, [], []⟩ "http://a/" 2
      (by decide)).1 (by decide),
    fun e he =>
      (enqueue_depth_bound (fun s => s) ⟨1, [], ⟨0, 0⟩, [], []⟩ "http://a/" 2
        (by decide)).2 1 "http://a/" (by simp) e he⟩

/-- Modelled from the spec: the frontier's queue primitive is
`goog.structs.PriorityQueue` of the Closure Library, which is not part of
this repository's sources (only its caller `crawlNextLink` /
`enqueueLink` is).  The spec's words: the frontier is "a priority queue
of CrawlLink entries ordered by integer priority, higher priority
dequeued first; ties broken by insertion order (FIFO within equal
priority)", and "`dequeueNext() -> CrawlLink | empty`: highest-priority
item first, FIFO among ties; empty if no items."  The queue is
represented by its `(priority, serialized link)` entries in insertion
order; dequeue selects the earliest entry of maximal priority (a later
entry displaces the current best only when its priority is strictly
greater) and removes exactly that occurrence, keeping the rest in
order. -/
def dequeueNext : List (Int × String) → Option ((Int × String) × List (Int × String))
  | [] => none
  | e :: es =>
      match dequeueNext es with
      | none => some (e, [])
      | some (b, rest) =>
          if b.1 > e.1 then some (b, e :: rest) else some (e, es)

/-- Claim C1: for every state of the frontier, `dequeueNext` returns an
entry whose priority is maximal among all queued entries; among entries
of equal priority it returns the earliest inserted (every entry queued
before the returned one has strictly smaller priority, and the remaining
queue keeps insertion order), so repeated dequeues serve equal
priorities FIFO; and it returns empty exactly when the queue has no
items. -/
theorem dequeueNext_highest_first_fifo (q : List (Int × String)) :
    (dequeueNext q = none ↔ q = []) ∧
    (∀ e rest, dequeueNext q = some (e, rest) →
      (∀ x ∈ q, x.1 ≤ e.1) ∧
      ∃ qearlier qlater, q = qearlier ++ e :: qlater ∧ rest = qearlier ++ qlater ∧
        ∀ x ∈ qearlier, x.1 < e.1) := by
  induction q with
  | nil =>
      refine ⟨by simp [dequeueNext], ?_⟩
      intro e rest h
      simp [dequeueNext] at h
  | cons e es ih =>
      constructor
      · simp only [dequeueNext]
        constructor
        · intro h
          cases hd : dequeueNext es with
          | none => rw [hd] at h; exact absurd h (by simp)
          | some p =>
              rw [hd] at h
              rcases p with ⟨b, rest⟩
              by_cases hb : b.1 > e.1 <;> simp [hb] at h
        · intro h; exact absurd h (by simp)
      · intro f rest h
        cases hd : dequeueNext es with
        | none =>
            have hes : es = [] := ih.1.mp hd
            subst hes
            simp only [dequeueNext] at h
            rcases h with ⟨rfl, rfl⟩
            exact ⟨by simp, [], [], by simp, by simp, by simp⟩
        | some p =>
            rcases p with ⟨b, brest⟩
            rcases ih.2 b brest hd with ⟨hble, pe, ps, hes, hbrest, hpe⟩
            simp only [dequeueNext, hd] at h
            by_cases hbe : b.1 > e.1
            · rw [if_pos hbe] at h
              rcases h with ⟨rfl, rfl⟩
              refine ⟨?_, e :: pe, ps, by simp [hes], by simp [hbrest], ?_⟩
              · intro x hx
                rcases List.mem_cons.mp hx with rfl | hx
                · omega
                · exact hble x hx
              · intro x hx
                rcases List.mem_cons.mp hx with rfl | hx
                · omega
                · exact hpe x hx
            · rw [if_neg hbe] at h
              rcases h with ⟨rfl, rfl⟩
              refine ⟨?_, [], es, by simp, by simp, by simp⟩
              intro x hx
              rcases List.mem_cons.mp hx with rfl | hx
              · omega
              · have := hble x hx
                omega

/-- Witness for C1 at a concrete input: from the queue
`[(1,a), (3,b), (3,c), (2,d)]`, `dequeueNext` returns `(3,b)` — the
earliest of the two maximal-priority entries — and keeps the rest in
insertion order. -/
theorem dequeueNext_highest_first_fifo_witness :
    dequeueNext [((1 : Int), "a"), (3, "b"), (3, "c"), (2, "d")]
        = some ((3, "b"), [(1, "a"), (3, "c"), (2, "d")]) ∧
    ((∀ x ∈ [((1 : Int), "a"), (3, "b"), (3, "c"), (2, "d")],
        x.1 ≤ ((3 : Int), "b").1) ∧
      ∃ qearlier qlater,
        [((1 : Int), "a"), (3, "b"), (3, "c"), (2, "d")]
          = qearlier ++ ((3 : Int), "b") :: qlater ∧
        [((1 : Int), "a"), (3, "c"), (2, "d")] = qearlier ++ qlater ∧
        ∀ x ∈ qearlier, x.1 < ((3 : Int), "b").1) :=
  ⟨by decide,
    (dequeueNext_highest_first_fifo _).2 ((3 : Int), "b")
      [(1, "a"), (3, "c"), (2, "d")] (by decide)⟩

/-- A `goog.Uri` object, modelled by its components as the getters used
by `getLoadableUrlObj` return them: `getScheme`, `getUserInfo`,
`getDomain` and `getFragment` return the component string (empty when
absent), `getPort` returns the port number or `null`.  `hasScheme()` is
`!!this.scheme_`, i.e. the scheme string is non-empty. -/
structure GoogUri where
  scheme : String
  userInfo : String
  domain : String
  port : Option Int
  path : String
  query : String
  fragment : String
deriving DecidableEq, Repr

def GoogUri.hasScheme (u : GoogUri) : Bool := u.scheme != ""

/-- The checks of `getLoadableUrlObj` applied to the already-resolved
url: reject on scheme, user-info or port mismatch with the document url;
clear the fragment; accept as-is on equal domains; accept with the
domain rewritten to the document's when the domains differ by exactly a
`www.` on one side; otherwise reject.  (The source clears the fragment
by mutation before the domain comparisons; `getDomain` is unaffected by
the fragment, so the domain comparisons here read the same values.) -/
def loadableChecks (u docUri : GoogUri) : Option GoogUri :=
  if u.scheme ≠ docUri.scheme then none
  else if u.userInfo ≠ docUri.userInfo then none
  else if u.port ≠ docUri.port then none
  else if u.domain = docUri.domain then some { u with fragment := "" }
  else if ("www." ++ u.domain = docUri.domain) ∨ (u.domain = "www." ++ docUri.domain)
    then some { u with fragment := "", domain := docUri.domain }
  else none

/-- `tmc.ScraperJS.prototype.getLoadableUrlObj`: clone the candidate,
resolve it against the base url when it has no scheme (the resolution
itself is `goog.Uri.prototype.resolve`, an external library, threaded
through as the `resolve` parameter), then run the loadable checks
against the document url. -/
def getLoadableUrlObj (resolve : GoogUri → GoogUri → GoogUri)
    (objUrl objBaseUrl objDocumentUrl : GoogUri) : Option GoogUri :=
  loadableChecks (if objUrl.hasScheme then objUrl else resolve objBaseUrl objUrl)
    objDocumentUrl

theorem www_append_ne (s : String) : "www." ++ s ≠ s := by
  intro h
  have hlen := congrArg String.length h
  have h4 : "www.".length = 4 := rfl
  rw [String.length_append, h4] at hlen
  omega

/-- Claim C8: writing `r` for the resolved candidate (the candidate
itself when it carries a scheme, else the library-resolved form), if
`r`'s scheme, user-info and port all equal the document url's and `r`'s
host equals the document's host with `www.` added or removed on one
side, `getLoadableUrlObj` accepts and rewrites the host to the
document's host exactly (both directions); and whenever the scheme,
user-info or port differs, it rejects with `null`. -/
theorem getLoadableUrlObj_scope_policy (resolve : GoogUri → GoogUri → GoogUri)
    (url base doc r : GoogUri)
    (hr : (if url.hasScheme then url else resolve base url) = r) :
    (r.scheme = doc.scheme → r.userInfo = doc.userInfo → r.port = doc.port →
      ("www." ++ r.domain = doc.domain ∨ r.domain = "www." ++ doc.domain) →
      getLoadableUrlObj resolve url base doc
        = some { r with fragment := "", domain := doc.domain }) ∧
    ((r.scheme ≠ doc.scheme ∨ r.userInfo ≠ doc.userInfo ∨ r.port ≠ doc.port) →
      getLoadableUrlObj resolve url base doc = none) := by
  unfold getLoadableUrlObj
  rw [hr]
  constructor
  · intro hs hu hp hw
    have hdne : r.domain ≠ doc.domain := by
      rcases hw with hw | hw
      · intro hd
        rw [hd] at hw
        exact www_append_ne doc.domain hw
      · intro hd
        rw [hd] at hw
        exact www_append_ne doc.domain hw.symm
    unfold loadableChecks
    rw [if_neg (by simp [hs]), if_neg (by simp [hu]), if_neg (by simp [hp]),
      if_neg hdne, if_pos hw]
  · intro hmis
    unfold loadableChecks
    by_cases hs : r.scheme = doc.scheme
    · by_cases hu : r.userInfo = doc.userInfo
      · have hp : r.port ≠ doc.port := by tauto
        rw [if_neg (by simp [hs]), if_neg (by simp [hu]), if_pos hp]
      · rw [if_neg (by simp [hs]), if_pos hu]
    · rw [if_pos hs]

/-- Witness for C8 at concrete inputs: `http://www.example.com/x` is
accepted relative to reference `http://example.com/` with its host
rewritten to `example.com`, and vice versa; a candidate with scheme
`https` against reference scheme `http` is rejected, as is one with
port `8080` against a portless reference. -/
theorem getLoadableUrlObj_scope_policy_witness :
    getLoadableUrlObj (fun _ u => u)
        ⟨"http", "", "www.example.com", none, "/x", "", ""⟩
        ⟨"http", "", "example.com", none, "/", "", ""⟩
        ⟨"http", "", "example.com", none, "/", "", ""⟩
      = some ⟨"http", "", "example.com", none, "/x", "", ""⟩ ∧
    getLoadableUrlObj (fun _ u => u)
        ⟨"http", "", "example.com", none, "/x", "", ""⟩
        ⟨"http", "", "www.example.com", none, "/", "", ""⟩
        ⟨"http", "", "www.example.com", none, "/", "", ""⟩
      = some ⟨"http", "", "www.example.com", none, "/x", "", ""⟩ ∧
    getLoadableUrlObj (fun _ u => u)
        ⟨"https", "", "example.com", none, "/x", "", ""⟩
        ⟨"http", "", "example.com", none, "/", "", ""⟩
        ⟨"http", "", "example.com", none, "/", "", ""⟩
      = none ∧
    getLoadableUrlObj (fun _ u => u)
        ⟨"http", "", "example.com", some 8080, "/x", "", ""⟩
        ⟨"http", "", "example.com", none, "/", "", ""⟩
        ⟨"http", "", "example.com", none, "/", "", ""⟩
      = none :=
  ⟨(getLoadableUrlObj_scope_policy (fun _ u => u)
      ⟨"http", "", "www.example.com", none, "/x", "", ""⟩
      ⟨"http", "", "example.com", none, "/", "", ""⟩
      ⟨"http", "", "example.com", none, "/", "", ""⟩
      ⟨"http", "", "www.example.com", none, "/x", "", ""⟩ rfl).1
      rfl rfl rfl (Or.inr (by decide)),
   (getLoadableUrlObj_scope_policy (fun _ u => u)
      ⟨"http", "", "example.com", none, "/x", "", ""⟩
      ⟨"http", "", "www.example.com", none, "/", "", ""⟩
      ⟨"http", "", "www.example.com", none, "/", "", ""⟩
      ⟨"http", "", "example.com", none, "/x", "", ""⟩ rfl).1
      rfl rfl rfl (Or.inl (by decide)),
   (getLoadableUrlObj_scope_policy (fun _ u => u)
      ⟨"https", "", "example.com", none, "/x", "", ""⟩
      ⟨"http", "", "example.com", none, "/", "", ""⟩
      ⟨"http", "", "example.com", none, "/", "", ""⟩
      ⟨"https", "", "example.com", none, "/x", "", ""⟩ rfl).2
      (Or.inl (by decide)),
   (getLoadableUrlObj_scope_policy (fun _ u => u)
      ⟨"http", "", "example.com", some 8080, "/x", "", ""⟩
      ⟨"http", "", "example.com", none, "/", "", ""⟩
      ⟨"http", "", "example.com", none, "/", "", ""⟩
      ⟨"http", "", "example.com", some 8080, "/x", "", ""⟩ rfl).2
      (Or.inr (Or.inr (by decide)))⟩

/-- The default `'*/*'` data extractor installed by `init`: for each
regular-expression match in order, hash the matched record text
(`goog.crypt.Sha1`, external, the `hash` parameter); if the hash is not
yet a key of `uniqueResults_`, add it and emit the record via
`document.write`.  The function takes the current `uniqueResults_` keys
and the list of matched record texts of this run (what the
`while ((match = rx.exec(content)) !== null)` loop visits, in order) and
returns the emitted records together with the updated keys. -/
def defaultDataExtractor (hash : String → String) :
    List String → List String → List String × List String
  | seen, [] => ([], seen)
  | seen, m :: ms =>
      if hash m ∈ seen then defaultDataExtractor hash seen ms
      else
        (m :: (defaultDataExtractor hash (hash m :: seen) ms).1,
          (defaultDataExtractor hash (hash m :: seen) ms).2)

/-- A session's sequence of data-extraction runs: `uniqueResults_` is
initialized once by `init` and persists across runs. -/
def runDataExtractions (hash : String → String) :
    List String → List (List String) → List String × List String
  | seen, [] => ([], seen)
  | seen, ms :: rest =>
      ((defaultDataExtractor hash seen ms).1
          ++ (runDataExtractions hash (defaultDataExtractor hash seen ms).2 rest).1,
        (runDataExtractions hash (defaultDataExtractor hash seen ms).2 rest).2)

theorem defaultDataExtractor_seen_iff (hash : String → String)
    (hinj : Function.Injective hash) (ms : List String) :
    ∀ (seen : List String) (t : String),
      hash t ∈ (defaultDataExtractor hash seen ms).2 ↔ hash t ∈ seen ∨ t ∈ ms := by
  induction ms with
  | nil => intro seen t; simp [defaultDataExtractor]
  | cons m ms ih =>
      intro seen t
      have hiff : hash t = hash m ↔ t = m :=
        ⟨fun h => hinj h, fun h => by rw [h]⟩
      by_cases hm : hash m ∈ seen
      · rw [defaultDataExtractor, if_pos hm, ih seen t]
        simp only [List.mem_cons]
        constructor
        · rintro (h | h)
          · exact Or.inl h
          · exact Or.inr (Or.inr h)
        · rintro (h | rfl | h)
          · exact Or.inl h
          · exact Or.inl hm
          · exact Or.inr h
      · rw [defaultDataExtractor, if_neg hm]
        simp only
        rw [ih (hash m :: seen) t]
        simp only [List.mem_cons, hiff]
        tauto

theorem defaultDataExtractor_count (hash : String → String)
    (hinj : Function.Injective hash) (ms : List String) :
    ∀ (seen : List String) (t : String),
      ((defaultDataExtractor hash seen ms).1).count t
        = if hash t ∈ seen then 0 else if t ∈ ms then 1 else 0 := by
  induction ms with
  | nil => intro seen t; simp [defaultDataExtractor]
  | cons m ms ih =>
      intro seen t
      by_cases hm : hash m ∈ seen
      · rw [defaultDataExtractor, if_pos hm, ih seen t]
        by_cases hts : hash t ∈ seen
        · simp [hts]
        · have htm : t ≠ m := by
            intro h
            rw [h] at hts
            exact hts hm
          simp [hts, List.mem_cons, htm]
      · rw [defaultDataExtractor, if_neg hm]
        simp only
        by_cases htm : t = m
        · subst htm
          rw [List.count_cons_self, ih (hash t :: seen) t]
          simp [hm]
        · rw [List.count_cons_of_ne htm, ih (hash m :: seen) t]
          have hne : hash t ≠ hash m := fun h => htm (hinj h)
          simp [List.mem_cons, hne, htm]

theorem runDataExtractions_count (hash : String → String)
    (hinj : Function.Injective hash) (runs : List (List String)) :
    ∀ (seen : List String) (t : String),
      (((runDataExtractions hash seen runs).1).count t
        = if hash t ∈ seen then 0 else if t ∈ runs.flatten then 1 else 0) ∧
      (hash t ∈ (runDataExtractions hash seen runs).2
        ↔ hash t ∈ seen ∨ t ∈ runs.flatten) := by
  induction runs with
  | nil => intro seen t; simp [runDataExtractions]
  | cons ms rest ih =>
      intro seen t
      have h1 := defaultDataExtractor_count hash hinj ms seen t
      have h2 := defaultDataExtractor_seen_iff hash hinj ms seen t
      have ihc := ih (defaultDataExtractor hash seen ms).2 t
      constructor
      · simp only [runDataExtractions, List.count_append, h1, ihc.1,
          List.flatten_cons, List.mem_append]
        by_cases hts : hash t ∈ seen
        · have hin : hash t ∈ (defaultDataExtractor hash seen ms).2 :=
            h2.mpr (Or.inl hts)
          simp [hts, hin]
        · by_cases htm : t ∈ ms
          · have hin : hash t ∈ (defaultDataExtractor hash seen ms).2 :=
              h2.mpr (Or.inr htm)
            simp [hts, htm, hin]
          · have hout : hash t ∉ (defaultDataExtractor hash seen ms).2 := by
              intro h
              rcases h2.mp h with h | h
              · exact hts h
              · exact htm h
            simp [hts, htm, hout]
      · simp only [runDataExtractions, ihc.2, h2, List.flatten_cons, List.mem_append]
        tauto

/-- Claim C9: within one session (the record dedup table starts empty and
persists across extraction runs), each distinct record text is emitted
exactly once — its count among all emissions is `1` when it is matched
by any run and `0` otherwise — and its hash ends up marked in the record
dedup table exactly when it was matched, so every later extraction of
the same text is suppressed before emission.  The SHA-1 digest is
injective on the records of a crawl (the spec assumes a
collision-resistant digest). -/
theorem record_dedup_emits_once (hash : String → String)
    (hinj : Function.Injective hash) (runs : List (List String)) (t : String) :
    ((runDataExtractions hash [] runs).1).count t
        = (if t ∈ runs.flatten then 1 else 0) ∧
    (hash t ∈ (runDataExtractions hash [] runs).2 ↔ t ∈ runs.flatten) := by
  have h := runDataExtractions_count hash hinj runs [] t
  simpa using h

/-- Witness for C9 at a concrete input: with the identity as (injective)
hash, the record `"a"` matched three times across two runs is emitted
exactly once. -/
theorem record_dedup_emits_once_witness :
    Function.Injective (fun s : String => s) ∧
    ((runDataExtractions (fun s => s) [] [["a", "a", "b"], ["a"]]).1).count "a"
        = (if "a" ∈ [["a", "a", "b"], ["a"]].flatten then 1 else 0) ∧
    ((fun s : String => s) "a"
        ∈ (runDataExtractions (fun s => s) [] [["a", "a", "b"], ["a"]]).2
      ↔ "a" ∈ [["a", "a", "b"], ["a"]].flatten) :=
  ⟨fun _ _ h => h,
    record_dedup_emits_once (fun s => s) (fun _ _ h => h)
      [["a", "a", "b"], ["a"]] "a"⟩

/-- JavaScript's `.` in a regular expression without the `s` flag: it
matches every character except the line terminators LF, CR, LINE
SEPARATOR (U+2028) and PARAGRAPH SEPARATOR (U+2029). -/
def jsDotMatches (c : Char) : Bool :=
  (c != '\n') && (c != '\r') && (c != Char.ofNat 0x2028) && (c != Char.ofNat 0x2029)

/-- Splits a character list at its first `'>'`:
`some (before, after)` when a `'>'` occurs, `none` otherwise. -/
def splitFirstGt : List Char → Option (List Char × List Char)
  | [] => none
  | c :: cs =>
      if c = '>' then some ([], cs)
      else
        match splitFirstGt cs with
        | none => none
        | some (a, b) => some (c :: a, b)

/-- `tmc.ScraperJS.RX_PARSE_LINK = /^([^>]*)>(.*)$/` applied by
`String.prototype.match`: the anchored match exists exactly when the
string contains a `'>'` and everything after the FIRST `'>'` is free of
line terminators (`[^>]*` cannot cross the first `'>'`, and `(.*)$` must
reach the end of the string without `.` matching a line terminator);
capture group 1 is then the part before the first `'>'` and capture
group 2 the part after it. -/
def rxParseLink (s : String) : Option (String × String) :=
  match splitFirstGt s.data with
  | none => none
  | some (a, b) => if b.all jsDotMatches then some (⟨a⟩, ⟨b⟩) else none

/-- JavaScript whitespace skipped by `parseInt`. -/
def jsWhitespace (c : Char) : Bool :=
  (c == ' ') || (c == '\t') || (c == '\n') || (c == '\r') ||
    (c == '\x0b') || (c == '\x0c')

/-- The value of the longest leading digit run, folded onto `acc`. -/
def digitRunVal (acc : Nat) : List Char → Nat
  | [] => acc
  | c :: cs => if c.isDigit then digitRunVal (acc * 10 + (c.toNat - 48)) cs else acc

/-- The digits (and their value) read by `parseInt` after sign handling:
`none` (JavaScript `NaN`) when no leading digit exists. -/
def jsParseIntCore : List Char → Option Int
  | [] => none
  | c :: cs =>
      if c.isDigit then some (Int.ofNat (digitRunVal (c.toNat - 48) cs)) else none

def jsParseIntSigned : List Char → Option Int
  | [] => none
  | c :: cs =>
      if c = '-' then (jsParseIntCore cs).map (fun v => -v)
      else if c = '+' then jsParseIntCore cs
      else jsParseIntCore (c :: cs)

/-- JavaScript `parseInt(s, 10)` as used by `crawlLink` on the depth
component: skip leading whitespace, read an optional sign, then the
longest run of decimal digits; `NaN` (modelled `none`) when that run is
empty. -/
def jsParseInt (s : String) : Option Int :=
  jsParseIntSigned (s.data.dropWhile jsWhitespace)

theorem digitChar_isDigit (k : Nat) (hk : k < 10) :
    (Nat.digitChar k).isDigit = true := by
  interval_cases k <;> decide

theorem digitChar_toNat (k : Nat) (hk : k < 10) :
    (Nat.digitChar k).toNat = 48 + k := by
  interval_cases k <;> decide

theorem toDigitsCore_digits (fuel : Nat) :
    ∀ (n : Nat) (ds : List Char), (∀ c ∈ ds, c.isDigit = true) →
      ∀ c ∈ Nat.toDigitsCore 10 fuel n ds, c.isDigit = true := by
  induction fuel with
  | zero =>
      intro n ds hds c hc
      simpa [Nat.toDigitsCore] using hds c hc
  | succ f ih =>
      intro n ds hds c hc
      have hmod : n % 10 < 10 := Nat.mod_lt n (by omega)
      have hdig := digitChar_isDigit (n % 10) hmod
      simp only [Nat.toDigitsCore] at hc
      by_cases h10 : n / 10 = 0
      · rw [if_pos h10] at hc
        rcases List.mem_cons.mp hc with rfl | hc
        · exact hdig
        · exact hds c hc
      · rw [if_neg h10] at hc
        refine ih (n / 10) (Nat.digitChar (n % 10) :: ds) ?_ c hc
        intro x hx
        rcases List.mem_cons.mp hx with rfl | hx
        · exact hdig
        · exact hds x hx

theorem repr_all_digits (n : Nat) : ∀ c ∈ (Nat.repr n).data, c.isDigit = true := by
  intro c hc
  have hdata : (Nat.repr n).data = Nat.toDigitsCore 10 (n + 1) n [] := rfl
  rw [hdata] at hc
  exact toDigitsCore_digits (n + 1) n [] (by simp) c hc

theorem toDigitsCore_ne_nil (fuel : Nat) :
    ∀ (n : Nat) (ds : List Char), ds ≠ [] → Nat.toDigitsCore 10 fuel n ds ≠ [] := by
  induction fuel with
  | zero => intro n ds hds; simpa [Nat.toDigitsCore] using hds
  | succ f ih =>
      intro n ds hds
      simp only [Nat.toDigitsCore]
      by_cases h10 : n / 10 = 0
      · rw [if_pos h10]; simp
      · rw [if_neg h10]
        exact ih (n / 10) (Nat.digitChar (n % 10) :: ds) (by simp)

theorem repr_ne_nil (n : Nat) : (Nat.repr n).data ≠ [] := by
  have hdata : (Nat.repr n).data = Nat.toDigitsCore 10 (n + 1) n [] := rfl
  rw [hdata]
  simp only [Nat.toDigitsCore]
  by_cases h10 : n / 10 = 0
  · rw [if_pos h10]; simp
  · rw [if_neg h10]
    exact toDigitsCore_ne_nil n (n / 10) [Nat.digitChar (n % 10)] (by simp)

/-- Pushes the decimal digits of `n` onto the accumulated value `a`. -/
def pushNat (a n : Nat) : Nat :=
  if n < 10 then a * 10 + n
  else pushNat a (n / 10) * 10 + n % 10
termination_by n
decreasing_by exact Nat.div_lt_self (by omega) (by omega)

theorem pushNat_zero (n : Nat) : pushNat 0 n = n := by
  induction n using Nat.strong_induction_on with
  | _ n ih =>
      unfold pushNat
      by_cases h : n < 10
      · rw [if_pos h]; omega
      · rw [if_neg h]
        rw [ih (n / 10) (Nat.div_lt_self (by omega) (by omega))]
        omega

theorem toDigitsCore_foldl (fuel : Nat) :
    ∀ (n : Nat), n < fuel → ∀ (ds : List Char) (a : Nat),
      (Nat.toDigitsCore 10 fuel n ds).foldl (fun x c => x * 10 + (c.toNat - 48)) a
        = ds.foldl (fun x c => x * 10 + (c.toNat - 48)) (pushNat a n) := by
  induction fuel with
  | zero => intro n hn; omega
  | succ f ih =>
      intro n hn ds a
      have hmod : n % 10 < 10 := Nat.mod_lt n (by omega)
      simp only [Nat.toDigitsCore]
      by_cases h10 : n / 10 = 0
      · have hn10 : n < 10 := by omega
        rw [if_pos h10]
        simp only [List.foldl_cons]
        rw [digitChar_toNat (n % 10) hmod]
        have hval : a * 10 + (48 + n % 10 - 48) = pushNat a n := by
          unfold pushNat
          rw [if_pos hn10]
          omega
        rw [hval]
      · rw [if_neg h10]
        have hdivlt : n / 10 < f := by
          have h1 : n / 10 < n := Nat.div_lt_self (by omega) (by omega)
          omega
        rw [ih (n / 10) hdivlt]
        simp only [List.foldl_cons]
        rw [digitChar_toNat (n % 10) hmod]
        have hval : pushNat a (n / 10) * 10 + (48 + n % 10 - 48) = pushNat a n := by
          conv_rhs => unfold pushNat
          rw [if_neg (by omega)]
          omega
        rw [hval]

theorem digitRunVal_all_digits (l : List Char) (hl : ∀ c ∈ l, c.isDigit = true) :
    ∀ acc : Nat, digitRunVal acc l
      = l.foldl (fun x c => x * 10 + (c.toNat - 48)) acc := by
  induction l with
  | nil => intro acc; rfl
  | cons c cs ih =>
      intro acc
      have hc : c.isDigit = true := hl c (by simp)
      rw [digitRunVal, if_pos hc, List.foldl_cons]
      exact ih (fun x hx => hl x (by simp [hx])) _

theorem isDigit_not_special (c : Char) (h : c.isDigit = true) :
    c ≠ '>' ∧ jsDotMatches c = true ∧ jsWhitespace c = false ∧
      c ≠ '-' ∧ c ≠ '+' := by
  refine ⟨?_, ?_, ?_, ?_, ?_⟩
  · intro hc; rw [hc] at h; exact absurd h (by decide)
  · simp only [jsDotMatches, Bool.and_eq_true, bne_iff_ne, ne_eq]
    refine ⟨⟨⟨?_, ?_⟩, ?_⟩, ?_⟩ <;>
      · intro hc; rw [hc] at h; exact absurd h (by decide)
  · by_contra hw
    simp only [Bool.not_eq_false] at hw
    simp only [jsWhitespace, Bool.or_eq_true, beq_iff_eq] at hw
    rcases hw with ((((hc | hc) | hc) | hc) | hc) | hc <;>
      (rw [hc] at h; exact absurd h (by decide))
  · intro hc; rw [hc] at h; exact absurd h (by decide)
  · intro hc; rw [hc] at h; exact absurd h (by decide)

/-- The decimal numeral produced for a depth parses back to the depth:
`parseInt(String(d), 10) = d`. -/
theorem jsParseInt_repr (d : Nat) : jsParseInt (Nat.repr d) = some (Int.ofNat d) := by
  rcases hl : (Nat.repr d).data with _ | ⟨c, cs⟩
  · exact absurd hl (repr_ne_nil d)
  · have hdigits := repr_all_digits d
    rw [hl] at hdigits
    have hc : c.isDigit = true := hdigits c (by simp)
    have hcs : ∀ x ∈ cs, x.isDigit = true := fun x hx => hdigits x (by simp [hx])
    obtain ⟨-, -, hcw, hcm, hcp⟩ := isDigit_not_special c hc
    unfold jsParseInt
    rw [hl]
    rw [List.dropWhile_cons_of_neg (by simp [hcw])]
    simp only [jsParseIntSigned]
    rw [if_neg hcm, if_neg hcp]
    simp only [jsParseIntCore]
    rw [if_pos hc]
    have hrun := digitRunVal_all_digits cs hcs (c.toNat - 48)
    have hfold : (c :: cs).foldl (fun x ch => x * 10 + (ch.toNat - 48)) 0
        = digitRunVal (c.toNat - 48) cs := by
      rw [List.foldl_cons, hrun]
      norm_num
    have hcore : ((Nat.repr d).data).foldl (fun x ch => x * 10 + (ch.toNat - 48)) 0
        = pushNat 0 d := by
      have hdata : (Nat.repr d).data = Nat.toDigitsCore 10 (d + 1) d [] := rfl
      rw [hdata, toDigitsCore_foldl (d + 1) d (by omega) [] 0]
      rfl
    rw [hl, hfold, pushNat_zero] at hcore
    rw [hcore]

theorem serializeLink_data (d : Nat) (u : String) :
    (serializeLink d u).data = (Nat.repr d).data ++ '>' :: u.data := by
  have happ : ∀ s t : String, (s ++ t).data = s.data ++ t.data := fun s t => rfl
  unfold serializeLink
  rw [happ, happ]
  simp

theorem splitFirstGt_append (a b : List Char) (ha : ∀ c ∈ a, c ≠ '>') :
    splitFirstGt (a ++ '>' :: b) = some (a, b) := by
  induction a with
  | nil => simp [splitFirstGt]
  | cons c cs ih =>
      have hc : c ≠ '>' := ha c (by simp)
      simp only [List.cons_append, splitFirstGt, if_neg hc, List.append_eq]
      rw [ih (fun x hx => ha x (by simp [hx]))]

/-- Claim C10: serialization of a crawl link round-trips.  For every
depth `d` and every url free of JavaScript line terminators (true of
every absolute URL, which may however contain the `'>'` separator
itself), matching the serialized form `d + '>' + url` against
`RX_PARSE_LINK` recovers the decimal form of `d` as the first capture
and exactly `url` as the second — the depth component `[^>]*` cannot
contain `'>'`, so the split happens at the first separator — and
`parseInt` on the first capture recovers `d`. -/
theorem parse_link_round_trip (d : Nat) (url : String)
    (hurl : ∀ c ∈ url.data, jsDotMatches c = true) :
    rxParseLink (serializeLink d url) = some (Nat.repr d, url) ∧
    jsParseInt (Nat.repr d) = some (Int.ofNat d) := by
  constructor
  · unfold rxParseLink
    rw [serializeLink_data]
    have hno : ∀ c ∈ (Nat.repr d).data, c ≠ '>' :=
      fun c hc => (isDigit_not_special c (repr_all_digits d c hc)).1
    rw [splitFirstGt_append _ _ hno]
    dsimp only
    rw [if_pos (List.all_eq_true.mpr hurl)]
  · exact jsParseInt_repr d

/-- Witness for C10 at a concrete input: depth `3` and the url
`"http://example.com/a>b"`, which itself contains the separator
character. -/
theorem parse_link_round_trip_witness :
    (∀ c ∈ "http://example.com/a>b".data, jsDotMatches c = true) ∧
    rxParseLink (serializeLink 3 "http://example.com/a>b")
        = some (Nat.repr 3, "http://example.com/a>b") ∧
    jsParseInt (Nat.repr 3) = some (Int.ofNat 3) :=
  ⟨by decide, parse_link_round_trip 3 "http://example.com/a>b" (by decide)⟩

end ScraperJS
